import Mathlib

/-!
Shallow embedding of the greedy staff-rostering engine in `read_schedule.py`
(class `Schedule`: `is_valid_assignment` and `greedy_schedule`), together with
proofs of the specification claims about it.

Python integers are modelled as `Int` (days can be compared against `day - 1`,
which is `-1` for day 0).  Python dictionaries built by successive insertion
(last write wins) are modelled as association lists read back-to-front.
Python exceptions (`StopIteration` from `next(...)`, `KeyError` from
`self.shifts_dict[...]`) are modelled with `Option`: `none` is an uncaught
exception, `some b` a normal boolean return.
-/

/-- `Assignment` dataclass: `(staff_id, day, shift_id)`. -/
structure Assignment where
  staff_id : String
  day : Int
  shift_id : String
  deriving DecidableEq, Repr

/-- One entry of `instance_data['shifts']`: id, length, forbidden_following. -/
structure Shift where
  id : String
  length : Int
  forbidden_following : List String
  deriving DecidableEq, Repr

/-- One entry of `instance_data['staff']` with every parsed field, including the
fields the engine never reads. `shift_limits` is the per-shift cap dictionary. -/
structure Staff where
  id : String
  shift_limits : List (String × Int)
  max_shifts : Int
  max_total_minutes : Int
  min_total_minutes : Int
  max_consecutive_shifts : Int
  min_consecutive_shifts : Int
  min_consecutive_days_off : Int
  max_weekends : Option Int
  deriving DecidableEq, Repr

/-- One entry of `instance_data['cover_requirements']`. -/
structure Cover where
  day : Int
  shift_id : String
  requirement : Int
  weight_under : Int
  weight_over : Int
  deriving DecidableEq, Repr

/-- The immutable `instance_data` dictionary (the fields the engine touches,
plus `horizon`, which it never reads). `days_off` maps staff id to day list. -/
structure InstanceData where
  horizon : Int
  shifts : List Shift
  staff : List Staff
  days_off : List (String × List Int)
  cover_requirements : List Cover
  deriving DecidableEq, Repr

/-- Lookup in a Python dict built by successive `d[k] = v` insertions: the last
write wins, so we search the reversed association list. -/
def dictGet {β : Type} (l : List (String × β)) (k : String) : Option β :=
  (l.reverse.find? (fun p => p.1 == k)).map (fun p => p.2)

/-- `self.shifts_dict = {shift['id']: shift for shift in instance_data['shifts']}`
followed by `self.shifts_dict[sid]` as an `Option` (a `KeyError` is `none`). -/
def shiftsDict (inst : InstanceData) (sid : String) : Option Shift :=
  (inst.shifts.reverse.find? (fun s => s.id == sid)).map id

/-- `next(s for s in self.instance_data['staff'] if s['id'] == staff_id)`:
first staff entry with the given id, `none` for `StopIteration`. -/
def findStaff (inst : InstanceData) (sid : String) : Option Staff :=
  inst.staff.find? (fun s => s.id == sid)

/-- `self.instance_data['days_off'].get(staff_id, [])`. -/
def daysOffList (inst : InstanceData) (sid : String) : List Int :=
  (dictGet inst.days_off sid).getD []

/-- Mutable engine state: the flat `assignments` list and the two derived
indexes (`defaultdict(list)` modelled as total functions defaulting to `[]`). -/
structure ScheduleState where
  assignments : List Assignment
  staff_assignments : String → List Assignment
  day_shift_assignments : Int × String → List Assignment

/-- State of a freshly constructed `Schedule`. -/
def initState : ScheduleState :=
  { assignments := [], staff_assignments := fun _ => [],
    day_shift_assignments := fun _ => [] }

/-- Check 1 of `is_valid_assignment`:
`day in self.instance_data['days_off'].get(staff_id, [])`. -/
def daysOffCheck (inst : InstanceData) (a : Assignment) : Bool :=
  (daysOffList inst a.staff_id).contains a.day

/-- Check 2 of `is_valid_assignment`: if the staff member has a cap for this
shift id, count existing assignments of that shift in the per-staff list and
block when `current_count >= cap`. -/
def quotaCheck (stf : Staff) (l : List Assignment) (a : Assignment) : Bool :=
  match dictGet stf.shift_limits a.shift_id with
  | none => false
  | some cap => decide (cap ≤ ((l.filter (fun x => x.shift_id == a.shift_id)).length : Int))

/-- Check 3 of `is_valid_assignment` (forbidden succession): look at the
trailing element of the per-staff list; if its day is `candidate.day - 1`,
consult `shifts_dict[last.shift_id]['forbidden_following']`.  `none` models the
`KeyError` when that shift id is missing from the shift table. -/
def succCheckO (inst : InstanceData) (l : List Assignment) (a : Assignment) : Option Bool :=
  match l.getLast? with
  | none => some false
  | some last =>
    if last.day = a.day - 1 then
      match shiftsDict inst last.shift_id with
      | none => none
      | some sh => some (sh.forbidden_following.contains a.shift_id)
    else some false

/-- `range(day - 1, -1, -1)`: the days `day-1, day-2, ..., 0` (empty when
`day ≤ 0`). -/
def prevDays (day : Int) : List Int :=
  if day ≤ 0 then [] else ((List.range day.toNat).reverse).map (fun n => (n : Int))

/-- The backward walk of check 4: count consecutive worked days down the given
day list, stopping at the first day with no assignment. -/
def backRun (l : List Assignment) : List Int → Nat
  | [] => 0
  | d :: ds => if l.any (fun x => x.day == d) then backRun l ds + 1 else 0

/-- Check 4 of `is_valid_assignment`: `consecutive_count > max_consecutive_shifts`
where `consecutive_count` is 1 (the candidate day) plus the backward run. -/
def consecCheck (stf : Staff) (l : List Assignment) (a : Assignment) : Bool :=
  decide (stf.max_consecutive_shifts < ((backRun l (prevDays a.day)) + 1 : Int))

/-- `Schedule.is_valid_assignment`.  `none` models an uncaught exception
(`StopIteration` when the staff id is unknown, `KeyError` from the succession
check); `some b` is a normal return of `b`. -/
def is_valid_assignment (inst : InstanceData) (st : ScheduleState) (a : Assignment) :
    Option Bool :=
  match findStaff inst a.staff_id with
  | none => none
  | some stf =>
    if daysOffCheck inst a then some false
    else if quotaCheck stf (st.staff_assignments a.staff_id) a then some false
    else
      match succCheckO inst (st.staff_assignments a.staff_id) a with
      | none => none
      | some true => some false
      | some false =>
        if consecCheck stf (st.staff_assignments a.staff_id) a then some false
        else some true

/-- The committed-insertion block of `greedy_schedule`: append the assignment to
the flat list and to both indexes (all three in lock-step). -/
def commit (st : ScheduleState) (a : Assignment) : ScheduleState :=
  { assignments := st.assignments ++ [a],
    staff_assignments := fun s =>
      if s = a.staff_id then st.staff_assignments s ++ [a] else st.staff_assignments s,
    day_shift_assignments := fun k =>
      if k = (a.day, a.shift_id) then st.day_shift_assignments k ++ [a]
      else st.day_shift_assignments k }

/-- One step of a stable descending insertion sort on `weight_under`:
an element is placed after every element with weight `≥` its own, so equal
weights keep their original relative order, as Python's stable `sorted` does. -/
def insertDesc (r : Cover) : List Cover → List Cover
  | [] => [r]
  | x :: xs => if r.weight_under ≤ x.weight_under then x :: insertDesc r xs else r :: x :: xs

/-- `sorted(self.instance_data['cover_requirements'], key=weight_under, reverse=True)`:
stable sort by descending `weight_under`. -/
def sortedCover (inst : InstanceData) : List Cover :=
  inst.cover_requirements.foldl (fun acc r => insertDesc r acc) []

/-- The inner staff loop of `greedy_schedule` for one requirement: try each
staff member in instance order while `needed > 0`, committing valid candidates.
Returns the updated state and the remaining `needed`; `none` propagates an
exception from `is_valid_assignment`. -/
def tryStaffList (inst : InstanceData) (day : Int) (shift : String) :
    List Staff → ScheduleState → Int → Option (ScheduleState × Int)
  | [], st, needed => some (st, needed)
  | s :: rest, st, needed =>
    if needed ≤ 0 then some (st, needed)
    else
      match is_valid_assignment inst st ⟨s.id, day, shift⟩ with
      | none => none
      | some false => tryStaffList inst day shift rest st needed
      | some true => tryStaffList inst day shift rest (commit st ⟨s.id, day, shift⟩) (needed - 1)

/-- The outer requirement loop of `greedy_schedule`: for each requirement
compute `needed`, skip it when `needed ≤ 0`, otherwise run the staff loop and
`return False` immediately when `needed` is still positive afterwards. -/
def processReqs (inst : InstanceData) : List Cover → ScheduleState → Option (Bool × ScheduleState)
  | [], st => some (true, st)
  | r :: rs, st =>
    if r.requirement - ((st.day_shift_assignments (r.day, r.shift_id)).length : Int) ≤ 0 then
      processReqs inst rs st
    else
      match tryStaffList inst r.day r.shift_id inst.staff st
          (r.requirement - ((st.day_shift_assignments (r.day, r.shift_id)).length : Int)) with
      | none => none
      | some (st2, needed2) =>
        if 0 < needed2 then some (false, st2) else processReqs inst rs st2

/-- `Schedule.greedy_schedule` run on a fresh `Schedule`: sort the requirements
and process them from the empty state. -/
def greedy_schedule (inst : InstanceData) : Option (Bool × ScheduleState) :=
  processReqs inst (sortedCover inst) initState

/-- Claim-level property, following the specification's words ("No forbidden
succession"): for all pairs of committed assignments of the same staff member
on consecutive days, the later shift id is not in the earlier shift's
forbidden-following set.  Used to compare the specification against the code. -/
def noForbiddenSuccB (inst : InstanceData) (st : ScheduleState) : Bool :=
  st.assignments.all (fun a => st.assignments.all (fun b =>
    !(a.staff_id == b.staff_id && b.day == a.day + 1) ||
      (match shiftsDict inst a.shift_id with
       | none => true
       | some sh => !(sh.forbidden_following.contains b.shift_id))))

/-- Length of the run of calendar-consecutive worked days ending at day `d`
(fuel-bounded by the list length, which bounds any run). -/
def runLenAux (l : List Assignment) : Nat → Int → Nat
  | 0, _ => 0
  | fuel+1, d => if l.any (fun x => x.day == d) then runLenAux l fuel (d - 1) + 1 else 0

/-- Run of consecutive worked days (per the given assignment list) ending at `d`. -/
def runLen (l : List Assignment) (d : Int) : Nat :=
  runLenAux l l.length d

/-- Claim-level property, following the specification's words
("Consecutive-run bound"): for every staff member, every run of
calendar-consecutive worked days has length at most that staff member's
`max_consecutive_shifts`.  Expressed as: the run ending at any worked day is
within the bound.  Used to compare the specification against the code. -/
def runBoundOkB (inst : InstanceData) (st : ScheduleState) : Bool :=
  inst.staff.all (fun s => (st.staff_assignments s.id).all (fun a =>
    decide ((runLen (st.staff_assignments s.id) a.day : Int) ≤ s.max_consecutive_shifts)))

/-- The single day shift used by the concrete scenarios. -/
def shiftD : Shift := ⟨"D", 480, []⟩

/-- Staff member S1 of the scenario instances: no quotas, `max_consecutive = 2`. -/
def staffS1 : Staff := ⟨"S1", [], 100, 10000, 0, 2, 1, 1, none⟩

/-- Scenario instance: one staff member, one shift, a single requirement
(day 0, D, required 1, weight 10). -/
def instW : InstanceData :=
  ⟨3, [shiftD], [staffS1], [], [⟨0, "D", 1, 10, 1⟩]⟩

/-- Scenario instance of claim C6: three requirements (days 0, 1, 2, weight 10
each) with `max_consecutive = 2`. -/
def instC6 : InstanceData :=
  ⟨3, [shiftD], [staffS1], [], [⟨0, "D", 1, 10, 1⟩, ⟨1, "D", 1, 10, 1⟩, ⟨2, "D", 1, 10, 1⟩]⟩

/-- Counterexample instance for C1: S1 has day 0 off, a weight-10 requirement on
day 0 (unsatisfiable) and a weight-5 requirement on day 1 (satisfiable). -/
def instC1 : InstanceData :=
  ⟨3, [shiftD], [staffS1], [("S1", [0])], [⟨0, "D", 1, 10, 1⟩, ⟨1, "D", 1, 5, 1⟩]⟩

/-- Shift A, whose forbidden-following set contains B. -/
def shiftA : Shift := ⟨"A", 480, ["B"]⟩

/-- Shift B, with empty forbidden-following set. -/
def shiftB : Shift := ⟨"B", 480, []⟩

/-- Staff member with a large consecutive limit and no quotas. -/
def staffS1Loose : Staff := ⟨"S1", [], 100, 10000, 0, 5, 1, 1, none⟩

/-- Counterexample instance for C2: the higher-weight requirement is on day 1
(shift B), the lower-weight one on day 0 (shift A, which forbids B after it). -/
def instC2 : InstanceData :=
  ⟨3, [shiftA, shiftB], [staffS1Loose], [], [⟨1, "B", 1, 10, 1⟩, ⟨0, "A", 1, 5, 1⟩]⟩

/-- Staff member with `max_consecutive = 1`. -/
def staffS1Tight : Staff := ⟨"S1", [], 100, 10000, 0, 1, 1, 1, none⟩

/-- Counterexample instance for C3: requirements on day 2 (weight 10) and day 1
(weight 5) with `max_consecutive = 1`. -/
def instC3 : InstanceData :=
  ⟨3, [shiftD], [staffS1Tight], [], [⟨2, "D", 1, 10, 1⟩, ⟨1, "D", 1, 5, 1⟩]⟩

/-- Staff member whose quota caps shift D at 1. -/
def staffS1Quota : Staff := ⟨"S1", [("D", 1)], 100, 10000, 0, 2, 1, 1, none⟩

/-- Witness instance for C7: a capped staff member and one requirement. -/
def instQ : InstanceData :=
  ⟨3, [shiftD], [staffS1Quota], [], [⟨0, "D", 1, 10, 1⟩]⟩

/-- Staff member whose `max_shifts` is 1 (a field the engine never reads). -/
def staffS1MaxOne : Staff := ⟨"S1", [], 1, 10000, 0, 2, 1, 1, none⟩

/-- Instance for C10: `max_shifts = 1` but requirements on days 0 and 2, both of
which greedy fill satisfies with S1, exceeding `max_shifts`. -/
def instC10 : InstanceData :=
  ⟨3, [shiftD], [staffS1MaxOne], [], [⟨0, "D", 1, 10, 1⟩, ⟨2, "D", 1, 9, 1⟩]⟩

/-- Same as `instC10` except the fields the engine never reads
(`max_shifts`, total-minutes bounds, min-consecutive fields, `max_weekends`). -/
def instC10b : InstanceData :=
  ⟨3, [shiftD], [⟨"S1", [], 99, 1, 1, 2, 7, 7, some 3⟩], [], [⟨0, "D", 1, 10, 1⟩, ⟨2, "D", 1, 9, 1⟩]⟩

/-- Unfolding characterisation: the validity predicate returns `some true`
exactly when the staff lookup succeeds and all four checks pass. -/
theorem is_valid_eq_some_true (inst : InstanceData) (st : ScheduleState) (a : Assignment) :
    is_valid_assignment inst st a = some true ↔
      ∃ stf, findStaff inst a.staff_id = some stf ∧
        daysOffCheck inst a = false ∧
        quotaCheck stf (st.staff_assignments a.staff_id) a = false ∧
        succCheckO inst (st.staff_assignments a.staff_id) a = some false ∧
        consecCheck stf (st.staff_assignments a.staff_id) a = false := by
  unfold is_valid_assignment
  cases h0 : findStaff inst a.staff_id with
  | none => simp
  | some stf =>
    simp only [Option.some.injEq]
    cases h1 : daysOffCheck inst a with
    | true => simp [h1]
    | false =>
      simp only [Bool.false_eq_true, if_false]
      cases h2 : quotaCheck stf (st.staff_assignments a.staff_id) a with
      | true => simp [h2]
      | false =>
        simp only [Bool.false_eq_true, if_false]
        cases h3 : succCheckO inst (st.staff_assignments a.staff_id) a with
        | none => simp
        | some b =>
          cases b with
          | true => simp
          | false =>
            cases h4 : consecCheck stf (st.staff_assignments a.staff_id) a with
            | true => simp [h1, h2, h3, h4]
            | false => simp [h1, h2, h3, h4]

/-- A state property preserved by every committed insertion of an assignment
that the validity predicate accepted. -/
def CommitInv (inst : InstanceData) (P : ScheduleState → Prop) : Prop :=
  ∀ st a, P st → is_valid_assignment inst st a = some true → P (commit st a)

/-- The staff loop preserves every commit-invariant property. -/
theorem tryStaffList_inv {inst : InstanceData} {P : ScheduleState → Prop}
    (hP : CommitInv inst P) :
    ∀ (staffL : List Staff) (st : ScheduleState) (needed : Int) (day : Int)
      (shift : String) (st2 : ScheduleState) (n2 : Int), P st →
      tryStaffList inst day shift staffL st needed = some (st2, n2) → P st2 := by
  intro staffL
  induction staffL with
  | nil =>
    intro st needed day shift st2 n2 hp h
    unfold tryStaffList at h
    simp only [Option.some.injEq, Prod.mk.injEq] at h
    exact h.1 ▸ hp
  | cons s rest ih =>
    intro st needed day shift st2 n2 hp h
    unfold tryStaffList at h
    split at h
    · simp only [Option.some.injEq, Prod.mk.injEq] at h
      exact h.1 ▸ hp
    · cases hv : is_valid_assignment inst st ⟨s.id, day, shift⟩ with
      | none => rw [hv] at h; exact absurd h (by simp)
      | some b =>
        rw [hv] at h
        cases b with
        | false => exact ih st needed day shift st2 n2 hp h
        | true =>
          exact ih (commit st ⟨s.id, day, shift⟩) (needed - 1) day shift st2 n2
            (hP st ⟨s.id, day, shift⟩ hp hv) h

/-- The requirement loop preserves every commit-invariant property. -/
theorem processReqs_inv {inst : InstanceData} {P : ScheduleState → Prop}
    (hP : CommitInv inst P) :
    ∀ (rs : List Cover) (st : ScheduleState) (b : Bool) (st2 : ScheduleState), P st →
      processReqs inst rs st = some (b, st2) → P st2 := by
  intro rs
  induction rs with
  | nil =>
    intro st b st2 hp h
    unfold processReqs at h
    simp only [Option.some.injEq, Prod.mk.injEq] at h
    exact h.2 ▸ hp
  | cons r rest ih =>
    intro st b st2 hp h
    unfold processReqs at h
    split at h
    · exact ih st b st2 hp h
    · split at h
      · exact Option.noConfusion h
      · rename_i st3 n3 heq
        have hmid : P st3 :=
          tryStaffList_inv hP inst.staff st _ r.day r.shift_id st3 n3 hp heq
        split at h
        · simp only [Option.some.injEq, Prod.mk.injEq] at h
          exact h.2 ▸ hmid
        · exact ih st3 b st2 hmid h

/-- Every commit-invariant property that holds initially holds of the final
state of a completed greedy run. -/
theorem greedy_inv {inst : InstanceData} {P : ScheduleState → Prop}
    (hP : CommitInv inst P) (hinit : P initState)
    {b : Bool} {st : ScheduleState} (h : greedy_schedule inst = some (b, st)) : P st :=
  processReqs_inv hP (sortedCover inst) initState b st hinit h

/-- The staff loop only appends to the flat assignment list. -/
theorem tryStaffList_assignments_extend {inst : InstanceData} :
    ∀ (staffL : List Staff) (st : ScheduleState) (needed : Int) (day : Int)
      (shift : String) (st2 : ScheduleState) (n2 : Int),
      tryStaffList inst day shift staffL st needed = some (st2, n2) →
      ∃ suff, st2.assignments = st.assignments ++ suff := by
  intro staffL
  induction staffL with
  | nil =>
    intro st needed day shift st2 n2 h
    unfold tryStaffList at h
    simp only [Option.some.injEq, Prod.mk.injEq] at h
    exact ⟨[], by rw [← h.1, List.append_nil]⟩
  | cons s rest ih =>
    intro st needed day shift st2 n2 h
    unfold tryStaffList at h
    split at h
    · simp only [Option.some.injEq, Prod.mk.injEq] at h
      exact ⟨[], by rw [← h.1, List.append_nil]⟩
    · cases hv : is_valid_assignment inst st ⟨s.id, day, shift⟩ with
      | none => rw [hv] at h; exact absurd h (by simp)
      | some b =>
        rw [hv] at h
        cases b with
        | false => exact ih st needed day shift st2 n2 h
        | true =>
          obtain ⟨suff, hsuff⟩ :=
            ih (commit st ⟨s.id, day, shift⟩) (needed - 1) day shift st2 n2 h
          exact ⟨⟨s.id, day, shift⟩ :: suff, by
            rw [hsuff]; unfold commit; simp⟩

/-- `commit` appends the new assignment to the flat list. -/
theorem mem_commit_assignments {st : ScheduleState} {a x : Assignment} :
    x ∈ (commit st a).assignments ↔ x ∈ st.assignments ∨ x = a := by
  simp [commit]

/-- The per-staff index after a commit. -/
theorem commit_staff_assignments (st : ScheduleState) (a : Assignment) (sid : String) :
    (commit st a).staff_assignments sid =
      if sid = a.staff_id then st.staff_assignments sid ++ [a]
      else st.staff_assignments sid := rfl

/-- The per-(day, shift) index after a commit. -/
theorem commit_day_shift_assignments (st : ScheduleState) (a : Assignment) (k : Int × String) :
    (commit st a).day_shift_assignments k =
      if k = (a.day, a.shift_id) then st.day_shift_assignments k ++ [a]
      else st.day_shift_assignments k := rfl

/-- Claim C8: the validity predicate fails whenever the candidate's day is in
that staff member's days-off set, and consequently no committed assignment of a
completed greedy run falls on one of the assigned staff member's days off. -/
theorem claim_C8 :
    (∀ (inst : InstanceData) (st : ScheduleState) (a : Assignment),
      a.day ∈ daysOffList inst a.staff_id → is_valid_assignment inst st a ≠ some true) ∧
    (∀ (inst : InstanceData) (b : Bool) (st : ScheduleState),
      greedy_schedule inst = some (b, st) →
      ∀ x ∈ st.assignments, x.day ∉ daysOffList inst x.staff_id) := by
  constructor
  · intro inst st a hmem hvalid
    rw [is_valid_eq_some_true] at hvalid
    obtain ⟨stf, _, h1, _, _, _⟩ := hvalid
    have hc : (daysOffList inst a.staff_id).contains a.day = true := List.elem_iff.mpr hmem
    unfold daysOffCheck at h1
    rw [hc] at h1
    exact Bool.noConfusion h1
  · intro inst b st hrun x hx
    have hinv : ∀ y ∈ st.assignments, y.day ∉ daysOffList inst y.staff_id := by
      refine greedy_inv
        (P := fun s => ∀ y ∈ s.assignments, y.day ∉ daysOffList inst y.staff_id) ?_ ?_ hrun
      · intro s a hp hv y hy
        rw [mem_commit_assignments] at hy
        cases hy with
        | inl h => exact hp y h
        | inr h =>
          subst h
          rw [is_valid_eq_some_true] at hv
          obtain ⟨stf, _, h1, _, _, _⟩ := hv
          intro hmem
          have hc : (daysOffList inst y.staff_id).contains y.day = true := List.elem_iff.mpr hmem
          unfold daysOffCheck at h1
          rw [hc] at h1
          exact Bool.noConfusion h1
      · intro y hy
        exact absurd hy (List.not_mem_nil y)
    exact hinv x hx

/-- Witness for C8: on the C1 instance, day 0 is S1's day off and the predicate
rejects the candidate; on the witness instance the committed assignment's day is
not a day off. -/
theorem claim_C8_witness :
    is_valid_assignment instC1 initState ⟨"S1", 0, "D"⟩ ≠ some true ∧
    (0 : Int) ∉ daysOffList instW "S1" :=
  ⟨claim_C8.1 instC1 initState ⟨"S1", 0, "D"⟩ (by decide),
   claim_C8.2 instW true (commit initState ⟨"S1", 0, "D"⟩) rfl ⟨"S1", 0, "D"⟩ (by decide)⟩

/-- Quota invariant: for every staff member found by the engine's lookup and
every configured non-negative cap, the per-staff count for that shift id stays
within the cap. -/
def QuotaInv (inst : InstanceData) (st : ScheduleState) : Prop :=
  ∀ (sid : String) (stf : Staff) (sh : String) (cap : Int),
    findStaff inst sid = some stf → dictGet stf.shift_limits sh = some cap → 0 ≤ cap →
    (((st.staff_assignments sid).filter (fun x => x.shift_id == sh)).length : Int) ≤ cap

/-- The quota invariant is preserved by every committed insertion. -/
theorem quota_commitInv (inst : InstanceData) : CommitInv inst (QuotaInv inst) := by
  intro st a hp hv sid stf sh cap hfind hcap hnn
  rw [is_valid_eq_some_true] at hv
  obtain ⟨stf2, hfind2, _, h2, _, _⟩ := hv
  rw [commit_staff_assignments]
  by_cases hsid : sid = a.staff_id
  · rw [if_pos hsid]
    rw [List.filter_append]
    by_cases hsh : a.shift_id = sh
    · have hstf : stf2 = stf := by
        rw [hsid] at hfind
        rw [hfind] at hfind2
        exact (Option.some.inj hfind2).symm
      unfold quotaCheck at h2
      rw [hstf, hsh, hcap] at h2
      have h2x : decide (cap ≤ (((st.staff_assignments a.staff_id).filter
          (fun x => x.shift_id == sh)).length : Int)) = false := h2
      have hlt := of_decide_eq_false h2x
      have hbt : (a.shift_id == sh) = true := beq_iff_eq.mpr hsh
      have hfa : (List.filter (fun x => x.shift_id == sh) [a]).length = 1 := by
        simp [List.filter, hbt]
      rw [List.length_append, hfa, hsid]
      push_cast
      omega
    · have hbf : (a.shift_id == sh) = false := beq_eq_false_iff_ne.mpr hsh
      have hfa : (List.filter (fun x => x.shift_id == sh) [a]).length = 0 := by
        simp [List.filter, hbf]
      rw [List.length_append, hfa, hsid]
      have := hp a.staff_id stf sh cap (hsid ▸ hfind) hcap hnn
      omega
  · rw [if_neg hsid]
    exact hp sid stf sh cap hfind hcap hnn

/-- Claim C7: the quota check blocks a candidate exactly when a cap is
configured for its shift id and the existing per-staff count for that shift id
already reaches the cap (absent shift ids are never quota-blocked, which the
iff's existential encodes); a blocked candidate is rejected by the validity
predicate; and every state produced by a completed greedy run keeps every
capped (staff, shift) count within its (non-negative) cap. -/
theorem claim_C7 :
    (∀ (stf : Staff) (l : List Assignment) (a : Assignment),
      quotaCheck stf l a = true ↔
        ∃ cap, dictGet stf.shift_limits a.shift_id = some cap ∧
          cap ≤ ((l.filter (fun x => x.shift_id == a.shift_id)).length : Int)) ∧
    (∀ (inst : InstanceData) (st : ScheduleState) (a : Assignment) (stf : Staff),
      findStaff inst a.staff_id = some stf →
      quotaCheck stf (st.staff_assignments a.staff_id) a = true →
      is_valid_assignment inst st a ≠ some true) ∧
    (∀ (inst : InstanceData) (b : Bool) (st : ScheduleState),
      greedy_schedule inst = some (b, st) → QuotaInv inst st) := by
  refine ⟨?_, ?_, ?_⟩
  · intro stf l a
    unfold quotaCheck
    cases hc : dictGet stf.shift_limits a.shift_id with
    | none => simp
    | some cap => simp
  · intro inst st a stf hfind hq hvalid
    rw [is_valid_eq_some_true] at hvalid
    obtain ⟨stf2, hfind2, _, h2, _, _⟩ := hvalid
    rw [hfind] at hfind2
    rw [← Option.some.inj hfind2] at h2
    rw [hq] at h2
    exact Bool.noConfusion h2
  · intro inst b st hrun
    refine greedy_inv (quota_commitInv inst) ?_ hrun
    intro sid stf sh cap _ _ hnn
    simpa using hnn

/-- Witness for C7: the quota check fires once S1 already holds one D shift
with cap 1, and the completed run on the capped instance stays within the cap. -/
theorem claim_C7_witness :
    quotaCheck staffS1Quota [⟨"S1", 0, "D"⟩] ⟨"S1", 0, "D"⟩ = true ∧
    ((((commit initState ⟨"S1", 0, "D"⟩).staff_assignments "S1").filter
      (fun x => x.shift_id == "D")).length : Int) ≤ 1 :=
  ⟨(claim_C7.1 staffS1Quota [⟨"S1", 0, "D"⟩] ⟨"S1", 0, "D"⟩).mpr ⟨1, by decide, by decide⟩,
   claim_C7.2.2 instQ true (commit initState ⟨"S1", 0, "D"⟩) rfl "S1" staffS1Quota "D" 1
     (by decide) (by decide) (by decide)⟩

/-- Equation: the succession check on a list with no trailing element. -/
theorem succCheckO_eq_nil (inst : InstanceData) (l : List Assignment) (a : Assignment)
    (h : l.getLast? = none) : succCheckO inst l a = some false := by
  unfold succCheckO
  rw [h]

/-- Equation: the succession check on a list with trailing element `last`. -/
theorem succCheckO_eq_last (inst : InstanceData) (l : List Assignment) (a last : Assignment)
    (h : l.getLast? = some last) :
    succCheckO inst l a =
      if last.day = a.day - 1 then
        match shiftsDict inst last.shift_id with
        | none => none
        | some sh => some (sh.forbidden_following.contains a.shift_id)
      else some false := by
  unfold succCheckO
  rw [h]

/-- Claim C4: the forbidden-succession check blocks exactly when the per-staff
list is non-empty, its trailing element's day is the candidate's day minus one,
and the candidate's shift id is listed in the forbidden-following set of that
trailing element's shift (which must then exist in the shift table); and the
check's verdict depends only on the trailing element, never on earlier entries
of the list. -/
theorem claim_C4 :
    ∀ (inst : InstanceData) (l : List Assignment) (a : Assignment),
      (succCheckO inst l a = some true ↔
        ∃ last, l.getLast? = some last ∧ last.day = a.day - 1 ∧
          ∃ sh, shiftsDict inst last.shift_id = some sh ∧
            sh.forbidden_following.contains a.shift_id = true) ∧
      (∀ (l2 : List Assignment) (x : Assignment),
        succCheckO inst (l ++ [x]) a = succCheckO inst (l2 ++ [x]) a) := by
  intro inst l a
  constructor
  · cases hL : l.getLast? with
    | none => rw [succCheckO_eq_nil inst l a hL]; simp [hL]
    | some last =>
      rw [succCheckO_eq_last inst l a last hL]
      by_cases hday : last.day = a.day - 1
      · rw [if_pos hday]
        cases hsd : shiftsDict inst last.shift_id with
        | none => simp [hL, hday, hsd]
        | some sh => simp [hL, hday, hsd]
      · rw [if_neg hday]
        simp [hL, hday]
  · intro l2 x
    rw [succCheckO_eq_last inst (l ++ [x]) a x (List.getLast?_concat l),
      succCheckO_eq_last inst (l2 ++ [x]) a x (List.getLast?_concat l2)]

/-- Claim C6: on the three-requirement scenario instance, greedy fill assigns
S1 to day 0 and day 1, the day-2 candidate fails the consecutive-run check, the
day-2 requirement stays unmet, and the run returns success = false with exactly
the two assignments present. -/
theorem claim_C6 :
    (greedy_schedule instC6).map (fun r => (r.1, r.2.assignments)) =
      some (false, [⟨"S1", 0, "D"⟩, ⟨"S1", 1, "D"⟩]) ∧
    (greedy_schedule instC6).map
      (fun r => consecCheck staffS1 (r.2.staff_assignments "S1") ⟨"S1", 2, "D"⟩) = some true ∧
    (greedy_schedule instC6).bind
      (fun r => is_valid_assignment instC6 r.2 ⟨"S1", 2, "D"⟩) = some false :=
  ⟨by decide, by decide, by decide⟩

/-- Counterexample to claim C1 as stated: on `instC1` the day-0 requirement is
unmet (S1 has day 0 off), and the code returns failure immediately with zero
assignments, even though the later day-1 requirement is in the instance and its
candidate would be accepted by the validity predicate in the final state.  Had
later requirements been processed into a best-effort partial schedule, the
day-1 assignment would be present. -/
theorem claim_C1_cex :
    (greedy_schedule instC1).map (fun r => (r.1, r.2.assignments)) = some (false, []) ∧
    (greedy_schedule instC1).bind (fun r => is_valid_assignment instC1 r.2 ⟨"S1", 1, "D"⟩) =
      some true ∧
    (⟨1, "D", 1, 5, 1⟩ : Cover) ∈ instC1.cover_requirements :=
  ⟨by decide, by decide, by decide⟩

/-- Claim C1, amended: when after the staff pass a requirement's needed count is
still positive, the run returns failure immediately with the state reached so
far — assignments committed for earlier requirements are retained (the flat
list only grew), and the remaining requirements are not processed. -/
theorem claim_C1 :
    ∀ (inst : InstanceData) (r : Cover) (rs : List Cover) (st st2 : ScheduleState) (n2 : Int),
      0 < r.requirement - ((st.day_shift_assignments (r.day, r.shift_id)).length : Int) →
      tryStaffList inst r.day r.shift_id inst.staff st
        (r.requirement - ((st.day_shift_assignments (r.day, r.shift_id)).length : Int)) =
        some (st2, n2) →
      0 < n2 →
      processReqs inst (r :: rs) st = some (false, st2) ∧
      ∃ suff, st2.assignments = st.assignments ++ suff := by
  intro inst r rs st st2 n2 h1 h2 h3
  refine ⟨?_, tryStaffList_assignments_extend inst.staff st _ r.day r.shift_id st2 n2 h2⟩
  unfold processReqs
  rw [if_neg (by omega), h2]
  show (if 0 < n2 then some (false, st2) else processReqs inst rs st2) = some (false, st2)
  rw [if_pos h3]

/-- Witness for C1 (amended): on `instC1` the day-0 requirement is unmet, the
run stops with the unchanged initial state and the day-1 requirement in the
tail is never looked at. -/
theorem claim_C1_witness :
    processReqs instC1 ((⟨0, "D", 1, 10, 1⟩ : Cover) :: [(⟨1, "D", 1, 5, 1⟩ : Cover)]) initState =
      some (false, initState) ∧
    ∃ suff, initState.assignments = initState.assignments ++ suff :=
  claim_C1 instC1 ⟨0, "D", 1, 10, 1⟩ [⟨1, "D", 1, 5, 1⟩] initState initState 1
    (by decide) rfl (by decide)

/-- The succession relation the committed per-staff lists satisfy between
adjacent entries (in insertion order): if the later-inserted assignment is on
the day right after the earlier one, its shift id is not forbidden-following
the earlier shift (whenever that shift exists in the shift table). -/
def succOK (inst : InstanceData) (x y : Assignment) : Prop :=
  y.day = x.day + 1 → ∀ sh, shiftsDict inst x.shift_id = some sh →
    sh.forbidden_following.contains y.shift_id = false

/-- Adjacent-pair succession invariant over every per-staff list. -/
def ChainInv (inst : InstanceData) (st : ScheduleState) : Prop :=
  ∀ sid, List.Chain' (succOK inst) (st.staff_assignments sid)

/-- The adjacent-pair succession invariant is preserved by committed insertions. -/
theorem chain_commitInv (inst : InstanceData) : CommitInv inst (ChainInv inst) := by
  intro st a hp hv sid
  rw [commit_staff_assignments]
  by_cases hsid : sid = a.staff_id
  · subst hsid
    rw [if_pos rfl]
    rw [is_valid_eq_some_true] at hv
    obtain ⟨stf, _, _, _, h3, _⟩ := hv
    rw [List.chain'_append]
    refine ⟨hp a.staff_id, List.chain'_singleton a, ?_⟩
    intro x hx y hy
    have hy2 : a = y := by simpa using hy
    rw [← hy2]
    rw [Option.mem_def] at hx
    intro hday sh hsh
    rw [succCheckO_eq_last inst _ a x hx] at h3
    have hdx : x.day = a.day - 1 := by omega
    rw [if_pos hdx, hsh] at h3
    have h3x : some (sh.forbidden_following.contains a.shift_id) = (some false : Option Bool) := h3
    exact Option.some.inj h3x
  · rw [if_neg hsid]
    exact hp sid

/-- Counterexample to claim C2 as stated: on `instC2` (shift A forbids B on the
following day) greedy fill processes the day-1 requirement for B first (higher
weight) and then accepts A on day 0, because the succession check only looks at
the most recently inserted assignment (day 1) against day `0 - 1`.  The final
schedule has S1 working A on day 0 and B on day 1 — a forbidden succession —
so the claimed invariant evaluates to false on the result. -/
theorem claim_C2_cex :
    (greedy_schedule instC2).map (fun r => (r.1, noForbiddenSuccB instC2 r.2, r.2.assignments)) =
      some (true, false, [⟨"S1", 1, "B"⟩, ⟨"S1", 0, "A"⟩]) ∧
    (shiftsDict instC2 "A").map Shift.forbidden_following = some ["B"] :=
  ⟨by decide, by decide⟩

/-- Claim C2, amended: for every completed greedy run and every staff member,
every pair of assignments adjacent in the per-staff list (insertion order)
whose days are consecutive respects the forbidden-following sets.  (The
calendar-pair version of the claim fails, see the counterexample: out-of-order
insertion lets a forbidden calendar succession through.) -/
theorem claim_C2 :
    ∀ (inst : InstanceData) (b : Bool) (st : ScheduleState),
      greedy_schedule inst = some (b, st) → ChainInv inst st := by
  intro inst b st hrun
  refine greedy_inv (chain_commitInv inst) ?_ hrun
  intro sid
  exact List.chain'_nil

/-- Witness for C2 (amended), at the single-assignment run on `instW`. -/
theorem claim_C2_witness :
    List.Chain' (succOK instW) ((commit initState ⟨"S1", 0, "D"⟩).staff_assignments "S1") :=
  claim_C2 instW true (commit initState ⟨"S1", 0, "D"⟩) rfl "S1"

/-- Decomposing `l ++ [a]` around a distinguished element: either the element is
the appended one, or the decomposition already lived inside `l`. -/
theorem append_singleton_eq_cases {α : Type} {l pre post : List α} {x a : α}
    (h : l ++ [a] = pre ++ x :: post) :
    (pre = l ∧ x = a ∧ post = []) ∨ ∃ post2, post = post2 ++ [a] ∧ l = pre ++ x :: post2 := by
  rcases List.eq_nil_or_concat post with hpost | ⟨post2, p, hpost⟩
  · subst hpost
    have h2 := List.append_inj' h rfl
    exact Or.inl ⟨h2.1.symm, ((List.cons.inj h2.2).1).symm, rfl⟩
  · subst hpost
    have hassoc : (l ++ [a] : List α) = (pre ++ x :: post2) ++ [p] := by
      rw [h]
      simp
    have h2 := List.append_inj' hassoc rfl
    refine Or.inr ⟨post2, ?_, h2.1⟩
    rw [(List.cons.inj h2.2).1]
    exact List.concat_eq_append post2 p

/-- Backward-run invariant: in every per-staff list, every assignment was
accepted against the prefix inserted before it — one plus the backward run of
consecutive previously-worked days ending just before its day stays within the
staff member's maximum-consecutive-shifts limit. -/
def BackRunInv (inst : InstanceData) (st : ScheduleState) : Prop :=
  ∀ (sid : String) (pre : List Assignment) (x : Assignment) (post : List Assignment),
    st.staff_assignments sid = pre ++ x :: post →
    ∀ stf, findStaff inst x.staff_id = some stf →
      ((backRun pre (prevDays x.day) : Int) + 1) ≤ stf.max_consecutive_shifts

/-- The backward-run invariant is preserved by committed insertions. -/
theorem backrun_commitInv (inst : InstanceData) : CommitInv inst (BackRunInv inst) := by
  intro st a hp hv sid pre x post hdec stf hstf
  rw [commit_staff_assignments] at hdec
  by_cases hsid : sid = a.staff_id
  · rw [if_pos hsid] at hdec
    rcases append_singleton_eq_cases hdec with ⟨hpre, hx, _⟩ | ⟨post2, _, hl⟩
    · subst hx
      rw [is_valid_eq_some_true] at hv
      obtain ⟨stf2, hfind2, _, _, _, h4⟩ := hv
      rw [hstf] at hfind2
      have hstfeq : stf = stf2 := Option.some.inj hfind2
      unfold consecCheck at h4
      have h4x := of_decide_eq_false h4
      rw [hpre, hsid, hstfeq]
      omega
    · exact hp sid pre x post2 hl stf hstf
  · rw [if_neg hsid] at hdec
    exact hp sid pre x post hdec stf hstf

/-- Counterexample to claim C3 as stated: on `instC3` (`max_consecutive = 1`)
greedy fill processes the day-2 requirement first and then accepts day 1,
because the consecutive check only walks backward from the candidate day and
never looks forward.  S1 ends up working days 1 and 2 — a run of length 2
with limit 1 — so the claimed invariant evaluates to false on the result. -/
theorem claim_C3_cex :
    (greedy_schedule instC3).map (fun r => (r.1, runBoundOkB instC3 r.2, r.2.assignments)) =
      some (true, false, [⟨"S1", 2, "D"⟩, ⟨"S1", 1, "D"⟩]) ∧
    (greedy_schedule instC3).map (fun r => runLen (r.2.staff_assignments "S1") 2) = some 2 ∧
    staffS1Tight.max_consecutive_shifts = 1 :=
  ⟨by decide, by decide, by decide⟩

/-- Claim C3, amended: for every completed greedy run, every committed
assignment satisfied the backward consecutive-run bound at its insertion time —
one plus the length of the run of consecutive worked days immediately before
its day, measured over that staff member's previously inserted assignments,
never exceeds the staff member's maximum-consecutive-shifts limit.  (The
calendar-run version of the claim fails, see the counterexample: the check
never looks at later days, so out-of-order insertion can overlong a run.) -/
theorem claim_C3 :
    ∀ (inst : InstanceData) (b : Bool) (st : ScheduleState),
      greedy_schedule inst = some (b, st) → BackRunInv inst st := by
  intro inst b st hrun
  refine greedy_inv (backrun_commitInv inst) ?_ hrun
  intro sid pre x post hdec stf hstf
  exact absurd hdec (by simp [initState])

/-- Witness for C3 (amended), at the single-assignment run on `instW`. -/
theorem claim_C3_witness :
    ((backRun [] (prevDays 0) : Int) + 1) ≤ staffS1.max_consecutive_shifts :=
  claim_C3 instW true (commit initState ⟨"S1", 0, "D"⟩) rfl "S1" [] ⟨"S1", 0, "D"⟩ []
    (by decide) staffS1 (by decide)

/-- The flat list after a commit. -/
theorem commit_assignments (st : ScheduleState) (a : Assignment) :
    (commit st a).assignments = st.assignments ++ [a] := rfl

/-- Index consistency: each derived index holds exactly the assignments of the
flat list with the matching key, in order. -/
def IndexConsistent (st : ScheduleState) : Prop :=
  (∀ sid, st.staff_assignments sid =
    st.assignments.filter (fun a => decide (a.staff_id = sid))) ∧
  (∀ k : Int × String, st.day_shift_assignments k =
    st.assignments.filter (fun a => decide ((a.day, a.shift_id) = k)))

/-- Every insertion path (there is only one: `commit`) updates the three
structures in lock-step, preserving index consistency. -/
theorem indexConsistent_commit (st : ScheduleState) (a : Assignment)
    (hp : IndexConsistent st) : IndexConsistent (commit st a) := by
  constructor
  · intro sid
    rw [commit_staff_assignments, commit_assignments, List.filter_append]
    by_cases hsid : sid = a.staff_id
    · rw [if_pos hsid, hp.1 sid]
      have hpa : decide (a.staff_id = sid) = true := decide_eq_true hsid.symm
      have : List.filter (fun x => decide (x.staff_id = sid)) [a] = [a] := by
        simp [List.filter_cons, hpa]
      rw [this]
    · rw [if_neg hsid, hp.1 sid]
      have hpa : decide (a.staff_id = sid) = false := by
        refine decide_eq_false ?_
        intro h
        exact hsid h.symm
      have : List.filter (fun x => decide (x.staff_id = sid)) [a] = [] := by
        simp [List.filter_cons, hpa]
      rw [this, List.append_nil]
  · intro k
    rw [commit_day_shift_assignments, commit_assignments, List.filter_append]
    by_cases hk : k = (a.day, a.shift_id)
    · rw [if_pos hk, hp.2 k]
      have hpa : decide ((a.day, a.shift_id) = k) = true := decide_eq_true hk.symm
      have : List.filter (fun x => decide ((x.day, x.shift_id) = k)) [a] = [a] := by
        simp [List.filter_cons, hpa]
      rw [this]
    · rw [if_neg hk, hp.2 k]
      have hpa : decide ((a.day, a.shift_id) = k) = false := by
        refine decide_eq_false ?_
        intro h
        exact hk h.symm
      have : List.filter (fun x => decide ((x.day, x.shift_id) = k)) [a] = [] := by
        simp [List.filter_cons, hpa]
      rw [this, List.append_nil]

/-- Partition counting: when the keys are distinct and cover every element,
the filtered sublist lengths add up to the whole list's length. -/
theorem sum_filter_lengths {κ : Type} [DecidableEq κ] (f : Assignment → κ) :
    ∀ (keys : List κ) (l : List Assignment), keys.Nodup → (∀ a ∈ l, f a ∈ keys) →
      ((keys.map (fun k => (l.filter (fun a => decide (f a = k))).length)).sum) = l.length := by
  intro keys
  induction keys with
  | nil =>
    intro l hnd hcov
    cases l with
    | nil => simp
    | cons x xs => exact absurd (hcov x (by simp)) (List.not_mem_nil _)
  | cons k ks ih =>
    intro l hnd hcov
    rw [List.map_cons, List.sum_cons]
    have hkn : k ∉ ks := (List.nodup_cons.mp hnd).1
    have hnd2 : ks.Nodup := (List.nodup_cons.mp hnd).2
    have hcov2 : ∀ a ∈ l.filter (fun a => !(decide (f a = k))), f a ∈ ks := by
      intro a ha
      rw [List.mem_filter] at ha
      have hne : ¬ (f a = k) := by simpa using ha.2
      have hm := hcov a ha.1
      simp only [List.mem_cons] at hm
      exact hm.resolve_left hne
    have hmap : ∀ k2 ∈ ks, (l.filter (fun a => decide (f a = k2))).length =
        ((l.filter (fun a => !(decide (f a = k)))).filter
          (fun a => decide (f a = k2))).length := by
      intro k2 hk2
      have hne : k2 ≠ k := fun h => hkn (h ▸ hk2)
      rw [List.filter_filter]
      congr 1
      apply List.filter_congr
      intro a ha
      by_cases hfa : f a = k2
      · simp [hfa, hne]
      · simp [hfa]
    have hmapeq : ks.map (fun k2 => (l.filter (fun a => decide (f a = k2))).length) =
        ks.map (fun k2 => ((l.filter (fun a => !(decide (f a = k)))).filter
          (fun a => decide (f a = k2))).length) :=
      List.map_congr_left hmap
    rw [hmapeq, ih (l.filter (fun a => !(decide (f a = k)))) hnd2 hcov2]
    exact (List.length_eq_length_filter_add (fun a => decide (f a = k))).symm

/-- Claim C5: commits update the flat list and both indexes in lock-step; for
every completed greedy run the three structures are consistent — each index
holds exactly the flat list's assignments with the matching key, every
assignment occurs with the same multiplicity in all three structures (and with
multiplicity zero under any other key), and the flat list's length equals the
sum of the per-staff index lengths and the sum of the per-(day, shift) index
lengths over any duplicate-free covering key sets. -/
theorem claim_C5 :
    (∀ (st : ScheduleState) (a : Assignment), IndexConsistent st → IndexConsistent (commit st a)) ∧
    (∀ (inst : InstanceData) (b : Bool) (st : ScheduleState),
      greedy_schedule inst = some (b, st) →
      IndexConsistent st ∧
      (∀ x : Assignment,
        st.assignments.count x = (st.staff_assignments x.staff_id).count x ∧
        st.assignments.count x = (st.day_shift_assignments (x.day, x.shift_id)).count x ∧
        (∀ sid, sid ≠ x.staff_id → (st.staff_assignments sid).count x = 0) ∧
        (∀ k, k ≠ (x.day, x.shift_id) → (st.day_shift_assignments k).count x = 0)) ∧
      (∀ keys : List String, keys.Nodup → (∀ a ∈ st.assignments, a.staff_id ∈ keys) →
        (keys.map (fun k => (st.staff_assignments k).length)).sum = st.assignments.length) ∧
      (∀ keys : List (Int × String), keys.Nodup →
        (∀ a ∈ st.assignments, (a.day, a.shift_id) ∈ keys) →
        (keys.map (fun k => (st.day_shift_assignments k).length)).sum =
          st.assignments.length)) := by
  constructor
  · exact indexConsistent_commit
  · intro inst b st hrun
    have hIC : IndexConsistent st := by
      refine greedy_inv (P := IndexConsistent) ?_ ?_ hrun
      · intro s a hp _
        exact indexConsistent_commit s a hp
      · exact ⟨fun sid => rfl, fun k => rfl⟩
    refine ⟨hIC, ?_, ?_, ?_⟩
    · intro x
      refine ⟨?_, ?_, ?_, ?_⟩
      · rw [hIC.1 x.staff_id]
        exact (List.count_filter (by simp)).symm
      · rw [hIC.2 (x.day, x.shift_id)]
        exact (List.count_filter (by simp)).symm
      · intro sid hne
        rw [hIC.1 sid]
        refine List.count_eq_zero.mpr ?_
        intro hmem
        rw [List.mem_filter] at hmem
        exact hne ((by simpa using hmem.2 : x.staff_id = sid)).symm
      · intro k hne
        rw [hIC.2 k]
        refine List.count_eq_zero.mpr ?_
        intro hmem
        rw [List.mem_filter] at hmem
        exact hne ((by simpa using hmem.2 : (x.day, x.shift_id) = k)).symm
    · intro keys hnd hcov
      have hm : keys.map (fun k => (st.staff_assignments k).length) =
          keys.map (fun k =>
            (st.assignments.filter (fun a => decide (a.staff_id = k))).length) :=
        List.map_congr_left (fun k _ => by rw [hIC.1 k])
      rw [hm]
      exact sum_filter_lengths Assignment.staff_id keys st.assignments hnd hcov
    · intro keys hnd hcov
      have hm : keys.map (fun k => (st.day_shift_assignments k).length) =
          keys.map (fun k =>
            (st.assignments.filter (fun a => decide ((a.day, a.shift_id) = k))).length) :=
        List.map_congr_left (fun k _ => by rw [hIC.2 k])
      rw [hm]
      exact sum_filter_lengths (fun a => (a.day, a.shift_id)) keys st.assignments hnd hcov

/-- Witness for C5: on the one-assignment run, the final state is consistent
and the single-key sums match the flat list length. -/
theorem claim_C5_witness :
    IndexConsistent (commit initState ⟨"S1", 0, "D"⟩) ∧
    (["S1"].map (fun k => ((commit initState ⟨"S1", 0, "D"⟩).staff_assignments k).length)).sum =
      (commit initState ⟨"S1", 0, "D"⟩).assignments.length :=
  ⟨(claim_C5.2 instW true (commit initState ⟨"S1", 0, "D"⟩) rfl).1,
   (claim_C5.2 instW true (commit initState ⟨"S1", 0, "D"⟩) rfl).2.2.1 ["S1"]
     (by simp) (by decide)⟩

/-- If the succession check raises (returns `none`), the trailing element of
the per-staff list has a shift id missing from the shift table. -/
theorem succCheckO_none_elim (inst : InstanceData) (l : List Assignment) (a : Assignment)
    (h : succCheckO inst l a = none) :
    ∃ last, l.getLast? = some last ∧ shiftsDict inst last.shift_id = none := by
  cases hL : l.getLast? with
  | none =>
    rw [succCheckO_eq_nil inst l a hL] at h
    exact Option.noConfusion h
  | some last =>
    rw [succCheckO_eq_last inst l a last hL] at h
    by_cases hday : last.day = a.day - 1
    · rw [if_pos hday] at h
      cases hsd : shiftsDict inst last.shift_id with
      | none => exact ⟨last, rfl, hsd⟩
      | some sh =>
        rw [hsd] at h
        have hx : some (sh.forbidden_following.contains a.shift_id) = (none : Option Bool) := h
        exact Option.noConfusion hx
    · rw [if_neg hday] at h
      exact Option.noConfusion h

/-- If the validity predicate raises (returns `none`), either the staff lookup
or the succession check's shift-table lookup raised. -/
theorem is_valid_eq_none_elim (inst : InstanceData) (st : ScheduleState) (a : Assignment)
    (h : is_valid_assignment inst st a = none) :
    findStaff inst a.staff_id = none ∨
    succCheckO inst (st.staff_assignments a.staff_id) a = none := by
  unfold is_valid_assignment at h
  split at h
  · rename_i heq
    exact Or.inl heq
  · rename_i stf heq
    right
    split at h
    · exact Option.noConfusion h
    · split at h
      · exact Option.noConfusion h
      · split at h
        · rename_i hs
          exact hs
        · exact Option.noConfusion h
        · split at h <;> exact Option.noConfusion h

/-- All shift ids appearing in the per-staff indexes are present in the shift
table. -/
def ShiftsKnown (inst : InstanceData) (st : ScheduleState) : Prop :=
  ∀ (sid : String), ∀ a ∈ st.staff_assignments sid, (shiftsDict inst a.shift_id).isSome

/-- The validity predicate never raises when the candidate's staff id resolves
and all previously recorded shift ids are in the shift table. -/
theorem is_valid_isSome (inst : InstanceData) (st : ScheduleState) (a : Assignment)
    (h1 : (findStaff inst a.staff_id).isSome)
    (h2 : ∀ b ∈ st.staff_assignments a.staff_id, (shiftsDict inst b.shift_id).isSome) :
    (is_valid_assignment inst st a).isSome := by
  rw [Option.isSome_iff_ne_none]
  intro hnone
  rcases is_valid_eq_none_elim inst st a hnone with hf | hs
  · rw [hf] at h1
    simp at h1
  · obtain ⟨last, hL, hsd⟩ := succCheckO_none_elim inst _ a hs
    have hmem : last ∈ st.staff_assignments a.staff_id := List.mem_of_mem_getLast? hL
    have hks := h2 last hmem
    rw [hsd] at hks
    simp at hks

/-- Membership in a per-staff index after a commit. -/
theorem mem_commit_staff {st : ScheduleState} {a b : Assignment} {sid : String}
    (h : b ∈ (commit st a).staff_assignments sid) :
    b ∈ st.staff_assignments sid ∨ b = a := by
  rw [commit_staff_assignments] at h
  by_cases hsid : sid = a.staff_id
  · rw [if_pos hsid] at h
    simpa using h
  · rw [if_neg hsid] at h
    exact Or.inl h

/-- Every listed staff member's own id resolves through the engine's lookup. -/
theorem findStaff_isSome_of_mem {inst : InstanceData} {s : Staff} (h : s ∈ inst.staff) :
    (findStaff inst s.id).isSome := by
  unfold findStaff
  rw [List.find?_isSome]
  exact ⟨s, h, by simp⟩

/-- Totality of the staff loop under the C9 hypotheses, with preservation of
the known-shifts property. -/
theorem tryStaffList_total {inst : InstanceData} {day : Int} {shift : String}
    (hsh : (shiftsDict inst shift).isSome) :
    ∀ (staffL : List Staff) (st : ScheduleState) (needed : Int),
      (∀ s ∈ staffL, (findStaff inst s.id).isSome) →
      ShiftsKnown inst st →
      ∃ st2 n2, tryStaffList inst day shift staffL st needed = some (st2, n2) ∧
        ShiftsKnown inst st2 := by
  intro staffL
  induction staffL with
  | nil =>
    intro st needed hstaff hknown
    exact ⟨st, needed, rfl, hknown⟩
  | cons s rest ih =>
    intro st needed hstaff hknown
    by_cases hn : needed ≤ 0
    · refine ⟨st, needed, ?_, hknown⟩
      unfold tryStaffList
      rw [if_pos hn]
    · have hvs : (is_valid_assignment inst st ⟨s.id, day, shift⟩).isSome :=
        is_valid_isSome inst st ⟨s.id, day, shift⟩ (hstaff s (by simp))
          (fun b hb => hknown s.id b hb)
      obtain ⟨bv, hbv⟩ := Option.isSome_iff_exists.mp hvs
      cases bv with
      | false =>
        obtain ⟨st2, n2, heq, hk2⟩ := ih st needed (fun x hx => hstaff x (by simp [hx])) hknown
        refine ⟨st2, n2, ?_, hk2⟩
        unfold tryStaffList
        rw [if_neg hn, hbv]
        exact heq
      | true =>
        have hk2 : ShiftsKnown inst (commit st ⟨s.id, day, shift⟩) := by
          intro sid b hb
          rcases mem_commit_staff hb with h | h
          · exact hknown sid b h
          · rw [h]
            exact hsh
        obtain ⟨st2, n2, heq, hk3⟩ := ih (commit st ⟨s.id, day, shift⟩) (needed - 1)
          (fun x hx => hstaff x (by simp [hx])) hk2
        refine ⟨st2, n2, ?_, hk3⟩
        unfold tryStaffList
        rw [if_neg hn, hbv]
        exact heq

/-- Totality of the requirement loop under the C9 hypotheses. -/
theorem processReqs_total {inst : InstanceData}
    (hstaff : ∀ s ∈ inst.staff, (findStaff inst s.id).isSome) :
    ∀ (rs : List Cover) (st : ScheduleState),
      (∀ r ∈ rs, (shiftsDict inst r.shift_id).isSome) →
      ShiftsKnown inst st →
      ∃ b st2, processReqs inst rs st = some (b, st2) := by
  intro rs
  induction rs with
  | nil =>
    intro st _ _
    exact ⟨true, st, rfl⟩
  | cons r rest ih =>
    intro st hrs hknown
    by_cases hn : r.requirement - ((st.day_shift_assignments (r.day, r.shift_id)).length : Int) ≤ 0
    · obtain ⟨b, st2, heq⟩ := ih st (fun x hx => hrs x (by simp [hx])) hknown
      refine ⟨b, st2, ?_⟩
      unfold processReqs
      rw [if_pos hn]
      exact heq
    · obtain ⟨st2, n2, heq, hk2⟩ :=
        tryStaffList_total (hrs r (by simp)) inst.staff st
          (r.requirement - ((st.day_shift_assignments (r.day, r.shift_id)).length : Int))
          hstaff hknown
      by_cases h2 : 0 < n2
      · refine ⟨false, st2, ?_⟩
        unfold processReqs
        rw [if_neg hn, heq]
        show (if 0 < n2 then some (false, st2) else processReqs inst rest st2) = some (false, st2)
        rw [if_pos h2]
      · obtain ⟨b, st3, heq3⟩ := ih st2 (fun x hx => hrs x (by simp [hx])) hk2
        refine ⟨b, st3, ?_⟩
        unfold processReqs
        rw [if_neg hn, heq]
        show (if 0 < n2 then some (false, st2) else processReqs inst rest st2) = some (b, st3)
        rw [if_neg h2]
        exact heq3

/-- Inserting into the stable descending sort adds no new elements. -/
theorem mem_insertDesc {x r : Cover} : ∀ {l : List Cover}, x ∈ insertDesc r l → x = r ∨ x ∈ l := by
  intro l
  induction l with
  | nil =>
    intro h
    unfold insertDesc at h
    exact Or.inl (by simpa using h)
  | cons y ys ih =>
    intro h
    unfold insertDesc at h
    split at h
    · rcases List.mem_cons.mp h with h1 | h2
      · exact Or.inr (by simp [h1])
      · rcases ih h2 with h3 | h4
        · exact Or.inl h3
        · exact Or.inr (by simp [h4])
    · rcases List.mem_cons.mp h with h1 | h2
      · exact Or.inl h1
      · exact Or.inr h2

/-- Elements of the folded insertion sort come from the seed or the input. -/
theorem mem_foldl_insertDesc :
    ∀ (l acc : List Cover) (x : Cover),
      x ∈ l.foldl (fun acc r => insertDesc r acc) acc → x ∈ acc ∨ x ∈ l := by
  intro l
  induction l with
  | nil =>
    intro acc x h
    exact Or.inl h
  | cons r rs ih =>
    intro acc x h
    rw [List.foldl_cons] at h
    rcases ih (insertDesc r acc) x h with h1 | h2
    · rcases mem_insertDesc h1 with h3 | h4
      · exact Or.inr (by simp [h3])
      · exact Or.inl h4
    · exact Or.inr (by simp [h2])

/-- Every requirement in the sorted order is one of the instance's. -/
theorem mem_sortedCover {inst : InstanceData} {x : Cover} (h : x ∈ sortedCover inst) :
    x ∈ inst.cover_requirements := by
  rcases mem_foldl_insertDesc inst.cover_requirements [] x h with h1 | h2
  · exact absurd h1 (List.not_mem_nil x)
  · exact h2

/-- Claim C9: when every candidate's staff id resolves in the staff list and
every requirement's shift id is in the shift table (hence every shift id ever
assigned is), neither the validity predicate nor greedy fill raises — the run
returns a boolean result and a (possibly partial) assignment set; a failed
check merely discards the candidate inside the loop. -/
theorem claim_C9 :
    ∀ (inst : InstanceData),
      (∀ s ∈ inst.staff, (findStaff inst s.id).isSome) →
      (∀ r ∈ inst.cover_requirements, (shiftsDict inst r.shift_id).isSome) →
      (greedy_schedule inst).isSome := by
  intro inst hstaff hcov
  obtain ⟨b, st2, heq⟩ := processReqs_total hstaff (sortedCover inst) initState
    (fun r hr => hcov r (mem_sortedCover hr))
    (fun sid a ha => absurd ha (List.not_mem_nil a))
  unfold greedy_schedule
  rw [heq]
  rfl

/-- Witness for C9, at the C6 scenario instance. -/
theorem claim_C9_witness : (greedy_schedule instC6).isSome :=
  claim_C9 instC6 (by decide) (by decide)

/-- Agreement of two staff entries on every field the engine reads: id, quota
mapping and maximum-consecutive limit.  `max_shifts`, the total-minutes bounds,
the minimum-consecutive fields and `max_weekends` are unconstrained. -/
def coreEq (s t : Staff) : Prop :=
  s.id = t.id ∧ s.shift_limits = t.shift_limits ∧
    s.max_consecutive_shifts = t.max_consecutive_shifts

/-- Two instances differing at most in the staff fields the engine never reads. -/
def InstEq (i j : InstanceData) : Prop :=
  i.shifts = j.shifts ∧ i.days_off = j.days_off ∧
    i.cover_requirements = j.cover_requirements ∧ List.Forall₂ coreEq i.staff j.staff

/-- The first-match staff lookup relates pointwise under `coreEq`. -/
theorem find_staff_rel (sid : String) :
    ∀ {l1 l2 : List Staff}, List.Forall₂ coreEq l1 l2 →
      (l1.find? (fun s => s.id == sid) = none ∧ l2.find? (fun s => s.id == sid) = none) ∨
      ∃ s t, l1.find? (fun s => s.id == sid) = some s ∧
        l2.find? (fun s => s.id == sid) = some t ∧ coreEq s t := by
  intro l1 l2 hF
  induction hF with
  | nil => exact Or.inl ⟨rfl, rfl⟩
  | cons hst hrest ih =>
    rename_i a b m1 m2
    cases hbv : (a.id == sid) with
    | true =>
      refine Or.inr ⟨a, b, ?_, ?_, hst⟩
      · exact List.find?_cons_of_pos _ hbv
      · refine List.find?_cons_of_pos _ ?_
        show (b.id == sid) = true
        rw [← hst.1]
        exact hbv
    | false =>
      have hna : ¬ ((fun s : Staff => s.id == sid) a = true) := by simp [hbv]
      have hnb : ¬ ((fun s : Staff => s.id == sid) b = true) := by
        show ¬ ((b.id == sid) = true)
        rw [← hst.1]
        simp [hbv]
      have e1 : List.find? (fun s => s.id == sid) (a :: m1) =
          List.find? (fun s => s.id == sid) m1 := List.find?_cons_of_neg _ hna
      have e2 : List.find? (fun s => s.id == sid) (b :: m2) =
          List.find? (fun s => s.id == sid) m2 := List.find?_cons_of_neg _ hnb
      rw [e1, e2]
      exact ih

/-- The validity predicate reads only the `coreEq` fields of the staff entries
(and the shifts, days-off and current state, which agree). -/
theorem valid_congr {i j : InstanceData} (hIJ : InstEq i j) (st : ScheduleState)
    (a : Assignment) : is_valid_assignment i st a = is_valid_assignment j st a := by
  have hdoc : daysOffCheck i a = daysOffCheck j a := by
    unfold daysOffCheck daysOffList
    rw [hIJ.2.1]
  have hsd : ∀ x, shiftsDict i x = shiftsDict j x := by
    intro x
    unfold shiftsDict
    rw [hIJ.1]
  have hsc : succCheckO i (st.staff_assignments a.staff_id) a =
      succCheckO j (st.staff_assignments a.staff_id) a := by
    cases hL : (st.staff_assignments a.staff_id).getLast? with
    | none => rw [succCheckO_eq_nil i _ a hL, succCheckO_eq_nil j _ a hL]
    | some last =>
      rw [succCheckO_eq_last i _ a last hL, succCheckO_eq_last j _ a last hL,
        hsd last.shift_id]
  unfold is_valid_assignment findStaff
  rcases find_staff_rel a.staff_id hIJ.2.2.2 with ⟨h1, h2⟩ | ⟨s, t, h1, h2, hst⟩
  · rw [h1, h2]
  · rw [h1, h2]
    have hq : quotaCheck s (st.staff_assignments a.staff_id) a =
        quotaCheck t (st.staff_assignments a.staff_id) a := by
      unfold quotaCheck
      rw [hst.2.1]
    have hcc : consecCheck s (st.staff_assignments a.staff_id) a =
        consecCheck t (st.staff_assignments a.staff_id) a := by
      unfold consecCheck
      rw [hst.2.2]
    show (if daysOffCheck i a then some false
      else if quotaCheck s (st.staff_assignments a.staff_id) a then some false
      else match succCheckO i (st.staff_assignments a.staff_id) a with
        | none => none
        | some true => some false
        | some false =>
          if consecCheck s (st.staff_assignments a.staff_id) a then some false
          else some true) =
      (if daysOffCheck j a then some false
      else if quotaCheck t (st.staff_assignments a.staff_id) a then some false
      else match succCheckO j (st.staff_assignments a.staff_id) a with
        | none => none
        | some true => some false
        | some false =>
          if consecCheck t (st.staff_assignments a.staff_id) a then some false
          else some true)
    rw [hdoc, hq, hsc, hcc]

/-- The staff loop reads only the `coreEq` fields of the staff entries. -/
theorem tryStaff_congr {i j : InstanceData} (hIJ : InstEq i j) (day : Int) (shift : String) :
    ∀ {l1 l2 : List Staff}, List.Forall₂ coreEq l1 l2 →
      ∀ (st : ScheduleState) (needed : Int),
        tryStaffList i day shift l1 st needed = tryStaffList j day shift l2 st needed := by
  intro l1 l2 hF
  induction hF with
  | nil => intro st needed; rfl
  | cons hst hrest ih =>
    rename_i a b m1 m2
    intro st needed
    unfold tryStaffList
    by_cases hn : needed ≤ 0
    · rw [if_pos hn, if_pos hn]
    · rw [if_neg hn, if_neg hn]
      have hcand : (⟨a.id, day, shift⟩ : Assignment) = ⟨b.id, day, shift⟩ := by rw [hst.1]
      rw [hcand, valid_congr hIJ st ⟨b.id, day, shift⟩]
      cases hv : is_valid_assignment j st ⟨b.id, day, shift⟩ with
      | none => rfl
      | some bv =>
        cases bv with
        | false => exact ih st needed
        | true => exact ih (commit st ⟨b.id, day, shift⟩) (needed - 1)

/-- The requirement loop reads none of the inert staff fields. -/
theorem processReqs_congr {i j : InstanceData} (hIJ : InstEq i j) :
    ∀ (rs : List Cover) (st : ScheduleState), processReqs i rs st = processReqs j rs st := by
  intro rs
  induction rs with
  | nil => intro st; rfl
  | cons r rest ih =>
    intro st
    unfold processReqs
    by_cases hn :
        r.requirement - ((st.day_shift_assignments (r.day, r.shift_id)).length : Int) ≤ 0
    · rw [if_pos hn, if_pos hn]
      exact ih st
    · rw [if_neg hn, if_neg hn]
      have ht := tryStaff_congr hIJ r.day r.shift_id hIJ.2.2.2 st
        (r.requirement - ((st.day_shift_assignments (r.day, r.shift_id)).length : Int))
      rw [ht]
      cases hv : tryStaffList j r.day r.shift_id j.staff st
          (r.requirement - ((st.day_shift_assignments (r.day, r.shift_id)).length : Int)) with
      | none => rfl
      | some p =>
        obtain ⟨st2, n2⟩ := p
        show (if 0 < n2 then some (false, st2) else processReqs i rest st2) =
          (if 0 < n2 then some (false, st2) else processReqs j rest st2)
        by_cases h2 : 0 < n2
        · rw [if_pos h2, if_pos h2]
        · rw [if_neg h2, if_neg h2]
          exact ih st2

/-- Whole-run non-interference. -/
theorem greedy_congr {i j : InstanceData} (hIJ : InstEq i j) :
    greedy_schedule i = greedy_schedule j := by
  unfold greedy_schedule
  have hs : sortedCover i = sortedCover j := by
    unfold sortedCover
    rw [hIJ.2.2.1]
  rw [hs]
  exact processReqs_congr hIJ (sortedCover j) initState

/-- Claim C10: the engine never consults `max_shifts`, the total-minutes
bounds, the minimum-consecutive fields or `max_weekends` — two instances
agreeing on everything else give the same predicate verdicts and the same
greedy run; and on `instC10` (a staff member with `max_shifts = 1`) greedy fill
commits two assignments to that staff member, exceeding `max_shifts`. -/
theorem claim_C10 :
    (∀ (i j : InstanceData), InstEq i j →
      (∀ (st : ScheduleState) (a : Assignment),
        is_valid_assignment i st a = is_valid_assignment j st a) ∧
      greedy_schedule i = greedy_schedule j) ∧
    ((greedy_schedule instC10).map (fun r => (r.1, r.2.assignments)) =
      some (true, [⟨"S1", 0, "D"⟩, ⟨"S1", 2, "D"⟩])) ∧
    (findStaff instC10 "S1").map Staff.max_shifts = some 1 := by
  refine ⟨?_, by decide, by decide⟩
  intro i j hIJ
  exact ⟨fun st a => valid_congr hIJ st a, greedy_congr hIJ⟩

/-- Witness for C10: two concrete instances differing only in the inert staff
fields produce identical greedy runs. -/
theorem claim_C10_witness :
    InstEq instC10 instC10b ∧ greedy_schedule instC10 = greedy_schedule instC10b := by
  have hIJ : InstEq instC10 instC10b := by
    refine ⟨rfl, rfl, rfl, ?_⟩
    exact List.Forall₂.cons ⟨rfl, rfl, rfl⟩ List.Forall₂.nil
  exact ⟨hIJ, (claim_C10.1 instC10 instC10b hIJ).2⟩
